import Mathlib

set_option maxRecDepth 100000

/-!
Verification of the chunking core of the document pipeline
(`services/document_processing/chunking_service.py` and its caller
`services/document_pipeline_service.py`).

Text is modelled as `List Char`.  Whitespace is the ASCII whitespace set
that Python's `\s` and `str.strip()` recognise on ASCII input.
-/

/-- ASCII whitespace, as matched by Python `\s` / stripped by `str.strip()`. -/
def isWs (c : Char) : Bool :=
  c == ' ' || c == '\t' || c == '\n' || c == '\x0d' || c == '\x0b' || c == '\x0c'

/-- Space or tab, the class `[ \t]` of `_clean_text`. -/
def isST (c : Char) : Bool :=
  c == ' ' || c == '\t'

/-- The control characters removed by `_clean_text`:
`[\x00-\x08\x0B\x0C\x0E-\x1F\x7F]`. -/
def forbiddenChar (c : Char) : Bool :=
  (c.toNat ≤ 8) || c.toNat == 11 || c.toNat == 12 ||
    (14 ≤ c.toNat && c.toNat ≤ 31) || c.toNat == 127

/-- Character list of a string literal. -/
def str (s : String) : List Char :=
  s.data

/-- Left strip: drop leading whitespace (half of Python `str.strip()`). -/
def stripL (l : List Char) : List Char :=
  l.dropWhile isWs

/-- Right strip: drop trailing whitespace (half of Python `str.strip()`). -/
def stripR (l : List Char) : List Char :=
  List.rdropWhile isWs l

/-- Python `str.strip()` on ASCII text. -/
def strip (l : List Char) : List Char :=
  stripR (stripL l)

/-- Check a predicate on every adjacent pair of characters. -/
def pairsOk (p : Char → Char → Bool) : List Char → Bool
  | [] => true
  | [_] => true
  | a :: b :: r => p a b && pairsOk p (b :: r)

/-- Does a character list contain a newline? -/
def containsNl (l : List Char) : Bool :=
  l.any (· == '\n')

/-- First substitution of `_clean_text`:
`re.sub(r'[\x00-\x08\x0B\x0C\x0E-\x1F\x7F]', '', text)`. -/
def sub_ctrl (l : List Char) : List Char :=
  l.filter fun c => !forbiddenChar c

/-- Second substitution of `_clean_text`: `re.sub(r'[ \t]+', ' ', text)` —
every maximal run of spaces/tabs becomes a single space. -/
def sub_spaces : List Char → List Char
  | [] => []
  | [c] => if isST c then [' '] else [c]
  | c :: d :: r =>
    if isST c then
      (if isST d then sub_spaces (d :: r) else ' ' :: sub_spaces (d :: r))
    else c :: sub_spaces (d :: r)

/-- Third substitution of `_clean_text`: `re.sub(r'\n\s*\n', '\n\n', text)`.
Per maximal whitespace run containing at least two newlines, the leftmost
greedy scan replaces the span from the run's first newline to its last
newline by exactly two newlines; equivalently, every whitespace character
with a newline both earlier and later in its run is deleted.  The state
records whether a newline occurred earlier in the current whitespace run. -/
def nlDel : Bool → List Char → List Char
  | _, [] => []
  | false, c :: r =>
    if isWs c then c :: nlDel (c == '\n') r
    else c :: nlDel false r
  | true, c :: r =>
    if isWs c then
      (if containsNl (r.takeWhile isWs) then nlDel true r else c :: nlDel true r)
    else c :: nlDel false r

/-- `ChunkingService._clean_text`: the three substitutions in source order,
then `str.strip()`. -/
def clean_text (l : List Char) : List Char :=
  strip (nlDel false (sub_spaces (sub_ctrl l)))

/-- Scanner mirroring `nlDel`: does `nlDel` leave the list unchanged?  True
iff no whitespace character has a newline both earlier and later within its
whitespace run. -/
def nlOk : Bool → List Char → Bool
  | _, [] => true
  | false, c :: r =>
    if isWs c then nlOk (c == '\n') r else nlOk false r
  | true, c :: r =>
    if isWs c then !containsNl (r.takeWhile isWs) && nlOk true r
    else nlOk false r

/-- Pair predicate: no two adjacent space/tab characters. -/
def stOkP (a b : Char) : Bool :=
  !(isST a && isST b)

/-- Does the list contain three consecutive newlines? -/
def hasTripleNl : List Char → Bool
  | a :: b :: c :: r => (a == '\n' && b == '\n' && c == '\n') || hasTripleNl (b :: c :: r)
  | _ => false

/-- Does the list contain two adjacent space/tab characters? -/
def hasDoubleST : List Char → Bool
  | a :: b :: r => (isST a && isST b) || hasDoubleST (b :: r)
  | _ => false

/-- `_merge_small_chunks(sections, min_chunk_size)`: one greedy left-to-right
pass; a section whose stripped length is below the threshold is concatenated
(with a blank line) with its successor, and the pair is consumed together. -/
def merge_small_chunks : List (List Char) → Nat → List (List Char)
  | [], _ => []
  | [s], _ => [s]
  | s1 :: s2 :: rest, m =>
    if (strip s1).length < m then
      (s1 ++ str "\n\n" ++ s2) :: merge_small_chunks rest m
    else
      s1 :: merge_small_chunks (s2 :: rest) m

/-- `ChunkingService.chunk_all_documents`, with the per-document chunking step
abstracted as a fallible function `f` (an exception in `chunk_document` is an
`Except.error`).  The source wraps the loop in `try ... except ... raise`, so
the first failing document aborts the whole batch. -/
def chunk_all_documents (f : Nat → Except Nat (List (List Char))) :
    List Nat → Except Nat (List (List Char))
  | [] => Except.ok []
  | d :: rest =>
    match f d with
    | Except.error e => Except.error e
    | Except.ok cs =>
      match chunk_all_documents f rest with
      | Except.error e => Except.error e
      | Except.ok acc => Except.ok (cs ++ acc)

/-- `DocumentPipelineService.run_full_pipeline` up to the chunking stage:
extraction output feeds `chunk_all_documents`; any exception is logged and
re-raised, i.e. propagated. -/
def run_full_pipeline (extract : Except Nat (List Nat))
    (f : Nat → Except Nat (List (List Char))) : Except Nat (List (List Char)) :=
  match extract with
  | Except.error e => Except.error e
  | Except.ok docs => chunk_all_documents f docs

/-- A per-document chunker that fails on document 0 and succeeds elsewhere,
used to exhibit the batch-abort behaviour. -/
def failingChunker (d : Nat) : Except Nat (List (List Char)) :=
  if d == 0 then Except.error 7 else Except.ok [str "chunk"]

/-- First substitution of `clean_table_block`: `re.sub(r'>\s*\n\s*<', '><')`.
A maximal whitespace run that contains a newline, sits right after `>` and
right before `<`, is deleted (the `>` and `<` of the match are re-emitted by
the replacement, so only the gap goes away).  State: `pg` — the previous
character was `>`; `del` — currently deleting such a run. -/
def gapDel : Bool → Bool → List Char → List Char
  | _, _, [] => []
  | pg, del, c :: r =>
    if del && isWs c then gapDel false true r
    else if pg && isWs c && containsNl (c :: r.takeWhile isWs) &&
        ((r.dropWhile isWs).head? == some '<') then gapDel false true r
    else c :: gapDel (c == '>') false r

/-- Second substitution: `re.sub(r'</tr>\s*\n\s*', '</tr>\n')`.  At a literal
`</tr>` whose following maximal whitespace run contains a newline, the run is
replaced by a single newline (`del` deletes the rest of the consumed run; a
failed candidate cannot overlap a later one, since `<` occurs only at the
start of the literal). -/
def trNlDel : Bool → List Char → List Char
  | _, [] => []
  | _, '<' :: '/' :: 't' :: 'r' :: '>' :: rest =>
    if containsNl (rest.takeWhile isWs) then
      '<' :: '/' :: 't' :: 'r' :: '>' :: '\n' :: trNlDel true rest
    else
      '<' :: '/' :: 't' :: 'r' :: '>' :: trNlDel false rest
  | del, c :: r =>
    if del && isWs c then trNlDel true r
    else c :: trNlDel false r

/-- Third substitution: `re.sub(r'>\s+', '>')` — whitespace immediately after
`>` is removed.  State: previous character was `>` (or we are mid-deletion). -/
def gtWsDel : Bool → List Char → List Char
  | _, [] => []
  | ag, c :: r =>
    if ag && isWs c then gtWsDel true r
    else c :: gtWsDel (c == '>') r

/-- Fourth substitution: `re.sub(r'\s+<', '<')` — a whitespace run immediately
before `<` is removed. -/
def wsLtDel : List Char → List Char
  | [] => []
  | c :: r =>
    if isWs c && ((r.dropWhile isWs).head? == some '<') then wsLtDel r
    else c :: wsLtDel r

/-- `clean_table_block` of `_clean_table_formatting`: the four substitutions
applied in source order to one `<table>...</table>` match. -/
def table_clean_block (b : List Char) : List Char :=
  wsLtDel (gtWsDel false (trNlDel false (gapDel false false b)))

/-- Split a list at the first occurrence of `pat`:
`some (before, after)` with the pattern itself removed, or `none`. -/
def splitFirst : List Char → List Char → Option (List Char × List Char)
  | pat, [] => if pat.isPrefixOf ([] : List Char) then some ([], []) else none
  | pat, c :: r =>
    if pat.isPrefixOf (c :: r) then some ([], (c :: r).drop pat.length)
    else
      match splitFirst pat r with
      | some (a, b) => some (c :: a, b)
      | none => none

/-- Does the list contain `pat` as a substring? -/
def hasSub (pat l : List Char) : Bool :=
  (splitFirst pat l).isSome

def tOpen : List Char := str "<table>"

def tClose : List Char := str "</table>"

/-- `re.sub(r'<table>.*?</table>', clean_table_block, text, flags=DOTALL)`:
the leftmost `<table>` with a later `</table>` starts a (non-greedy) match;
the cleaned match is emitted and scanning resumes after it.  If the first
`<table>` has no later `</table>` there is no match at all and the text is
returned unchanged.  Fuel-driven; the fuel `l.length` always suffices. -/
def compactF : Nat → List Char → List Char
  | 0, l => l
  | f + 1, l =>
    match splitFirst tOpen l with
    | none => l
    | some (pre, rest) =>
      match splitFirst tClose rest with
      | none => l
      | some (mid, rest2) =>
        pre ++ table_clean_block (tOpen ++ mid ++ tClose) ++ compactF f rest2

/-- `ChunkingService._clean_table_formatting`. -/
def clean_table_formatting (l : List Char) : List Char :=
  compactF l.length l

/-- The segmentation of a text into regions outside table spans (`false`) and
complete `<table>...</table>` spans (`true`), following the same leftmost
non-greedy scan as `compactF`. -/
def segsF : Nat → List Char → List (Bool × List Char)
  | 0, l => [(false, l)]
  | f + 1, l =>
    match splitFirst tOpen l with
    | none => [(false, l)]
    | some (pre, rest) =>
      match splitFirst tClose rest with
      | none => [(false, l)]
      | some (mid, rest2) =>
        (false, pre) :: (true, tOpen ++ mid ++ tClose) :: segsF f rest2

def tableSegs (l : List Char) : List (Bool × List Char) :=
  segsF l.length l

/-- Concatenate the segments back. -/
def joinSegs : List (Bool × List Char) → List Char
  | [] => []
  | sg :: t => sg.2 ++ joinSegs t

/-- Concatenate the segments, cleaning the table spans. -/
def joinClean : List (Bool × List Char) → List Char
  | [] => []
  | sg :: t => (if sg.1 then table_clean_block sg.2 else sg.2) ++ joinClean t

/-- Does the text contain a complete `<table>...</table>` span? -/
def hasTableSpan (l : List Char) : Bool :=
  match splitFirst tOpen l with
  | none => false
  | some (_, rest) => (splitFirst tClose rest).isSome

/-- Pair predicate: no `>` immediately followed by whitespace. -/
def gtOk (a b : Char) : Bool :=
  !(a == '>' && isWs b)

/-- Python `text.split('\n')`: split at every newline, keeping empty pieces
(`"".split('\n') == [""]`). -/
def splitLines : List Char → List (List Char)
  | [] => [[]]
  | c :: r =>
    if c == '\n' then [] :: splitLines r
    else
      match splitLines r with
      | l :: ls => (c :: l) :: ls
      | [] => [[c]]

/-- Python `'\n'.join(lines)`. -/
def joinNl : List (List Char) → List Char
  | [] => []
  | [l] => l
  | l :: ls => l ++ '\n' :: joinNl ls

/-- The heading pattern `^#{1,4}\s+.+$` of `_split_by_headers_manual`, matched
against a newline-free line: one to four leading `#`, then at least one
whitespace character, then at least one further character. -/
def headerMatch (l : List Char) : Bool :=
  decide (1 ≤ (l.takeWhile (· == '#')).length) &&
    decide ((l.takeWhile (· == '#')).length ≤ 4) &&
    (match l.drop (l.takeWhile (· == '#')).length with
     | c :: _ :: _ => isWs c
     | _ => false)

/-- `re.match(header_pattern, line.strip())` of `_split_by_headers_manual`. -/
def isHeaderLine (ln : List Char) : Bool :=
  headerMatch (strip ln)

/-- Close the accumulated section: join its lines, strip, and emit it only if
the result is non-empty. -/
def flushSec (current : List (List Char)) : List (List Char) :=
  match current with
  | [] => []
  | _ =>
    let st := strip (joinNl current)
    if st.isEmpty then [] else [st]

/-- The line scan of `_split_by_headers_manual`: a heading line closes the
accumulated section and starts a new one beginning with the heading line
itself; other lines are appended to the current section. -/
def segGo : List (List Char) → List (List Char) → List (List Char)
  | current, [] => flushSec current
  | current, ln :: rest =>
    if isHeaderLine ln then flushSec current ++ segGo [ln] rest
    else segGo (current ++ [ln]) rest

/-- `ChunkingService._split_by_headers_manual`. -/
def split_by_headers_manual (t : List Char) : List (List Char) :=
  segGo [] (splitLines t)

/-- First line of a section (everything before the first newline). -/
def firstLine (l : List Char) : List Char :=
  l.takeWhile fun c => !(c == '\n')

/-- The chunk record assembled by `chunk_document`: `page_content` plus the
metadata fields the chunker itself writes (the pass-through source metadata
is not modelled, it is copied verbatim). -/
structure ChunkRecord where
  content : List Char
  chunk_index : Nat
  chunk_type : List Char
  original_length : Nat
  section_index : Nat
deriving DecidableEq

/-- `ChunkingService.chunk_document` with the small-chunk threshold as a
parameter: clean, split by headers, merge small sections, enumerate the
merged sections as `section_index`, drop whitespace-only sections, then wrap
each survivor with a dense `chunk_index`. -/
def chunk_document_at (minc : Nat) (raw : List Char) : List ChunkRecord :=
  (List.enum
      ((List.enum (merge_small_chunks (split_by_headers_manual (clean_text raw)) minc)).filter
        fun p => !(strip p.2).isEmpty)).map
    fun q =>
      { content := clean_table_formatting (strip q.2.2),
        chunk_index := q.1,
        chunk_type := str "header_section",
        original_length := raw.length,
        section_index := q.2.1 }

/-- `ChunkingService.chunk_document` (source default `min_chunk_size = 100`). -/
def chunk_document (raw : List Char) : List ChunkRecord :=
  chunk_document_at 100 raw

/-- Fixture of the spec's end-to-end scenario (C4). -/
def fixtureC4 : List Char :=
  str "Intro line.\n\n# Section One\nShort.\n\n## Sub\nThis is a longer paragraph exceeding the minimum character threshold easily."

/-- A three-section document whose first section is small: after merging, the
last section sits at post-merge position 1 but pre-merge position 2 (C2). -/
def docC2 : List Char :=
  str "# A\nhi\n\n# B\n" ++ List.replicate 120 'x' ++ str "\n\n# C\n" ++ List.replicate 120 'y'

/- ------------------------------------------------------------------ -/
/- Helper lemmas for strip -/

theorem strip_length_le (l : List Char) : (strip l).length ≤ l.length := by
  have h1 : stripL l <:+ l := List.dropWhile_suffix isWs
  have h2 : stripR (stripL l) <+: stripL l :=
    List.rdropWhile_prefix isWs (stripL l)
  exact le_trans h2.sublist.length_le h1.sublist.length_le

theorem stripL_head_not_ws :
    ∀ (l : List Char) (c : Char) (r : List Char), stripL l = c :: r → isWs c = false := by
  intro l
  induction l with
  | nil => intro c r h; simp [stripL, List.dropWhile] at h
  | cons a t ih =>
    intro c r h
    by_cases ha : isWs a = true
    · rw [stripL, List.dropWhile_cons_of_pos ha] at h
      exact ih c r h
    · rw [stripL, List.dropWhile_cons_of_neg (by simpa using ha)] at h
      injection h with h1 _
      subst h1
      simpa using ha

theorem stripR_take (l : List Char) : ∃ t, l = stripR l ++ t := by
  obtain ⟨t, ht⟩ := List.rdropWhile_prefix isWs l
  exact ⟨t, ht.symm⟩

theorem stripL_stripR_stripL (l : List Char) :
    stripL (stripR (stripL l)) = stripR (stripL l) := by
  cases hv : stripL l with
  | nil => simp [stripR, stripL, List.rdropWhile, List.dropWhile]
  | cons c r =>
    have hc : isWs c = false := stripL_head_not_ws l c r hv
    obtain ⟨t, ht⟩ := stripR_take (c :: r)
    cases hw : stripR (c :: r) with
    | nil => simp [stripL, List.dropWhile]
    | cons c' r' =>
      rw [hw] at ht
      rw [List.cons_append] at ht
      injection ht with h1 _
      subst h1
      rw [stripL, List.dropWhile_cons_of_neg (by simpa using hc)]

theorem strip_idem (l : List Char) : strip (strip l) = strip l := by
  show stripR (stripL (stripR (stripL l))) = stripR (stripL l)
  rw [stripL_stripR_stripL]
  show List.rdropWhile isWs (List.rdropWhile isWs (stripL l)) = List.rdropWhile isWs (stripL l)
  exact List.rdropWhile_idempotent isWs (stripL l)

theorem strip_eq_nil_iff (l : List Char) : strip l = [] ↔ ∀ c ∈ l, isWs c = true := by
  constructor
  · intro h c hc
    have hsplit := List.takeWhile_append_dropWhile (p := isWs) (l := l)
    rw [← hsplit] at hc
    rcases List.mem_append.mp hc with h1 | h1
    · exact List.mem_takeWhile_imp h1
    · have h2 : ∀ x ∈ stripL l, isWs x = true := by
        have := (List.rdropWhile_eq_nil_iff (p := isWs) (l := stripL l)).mp h
        simpa using this
      exact h2 c h1
  · intro h
    have h1 : stripL l = [] := List.dropWhile_eq_nil_iff.mpr h
    show stripR (stripL l) = []
    rw [h1]
    rfl

theorem strip_sublist (l : List Char) : List.Sublist (strip l) l := by
  have h1 : stripL l <:+ l := List.dropWhile_suffix isWs
  have h2 : stripR (stripL l) <+: stripL l := List.rdropWhile_prefix isWs (stripL l)
  exact h2.sublist.trans h1.sublist

theorem strip_append_ne_nil (u v : List Char) (h : strip u ≠ []) : strip (u ++ v) ≠ [] := by
  intro hc
  apply h
  rw [strip_eq_nil_iff] at hc ⊢
  intro c hcu
  exact hc c (List.mem_append.mpr (Or.inl hcu))

/- ------------------------------------------------------------------ -/
/- Closure lemmas for pairsOk and List.all -/

theorem pairs_cons0 (p : Char → Char → Bool) (a : Char) (l : List Char) :
    pairsOk p (a :: l) = true ↔
      (∀ b, l.head? = some b → p a b = true) ∧ pairsOk p l = true := by
  cases l with
  | nil => simp [pairsOk]
  | cons b r =>
    show (p a b && pairsOk p (b :: r)) = true ↔ _
    constructor
    · intro h
      have h1 := (Bool.and_eq_true _ _).mp h
      exact ⟨fun b' hb' => by cases hb'; exact h1.1, h1.2⟩
    · intro ⟨h1, h2⟩
      exact (Bool.and_eq_true _ _).mpr ⟨h1 b rfl, h2⟩

theorem pairs_tail (p : Char → Char → Bool) (c : Char) (r : List Char)
    (h : pairsOk p (c :: r) = true) : pairsOk p r = true :=
  ((pairs_cons0 p c r).mp h).2

theorem pairs_append_left (p : Char → Char → Bool) :
    ∀ (l₁ l₂ : List Char), pairsOk p (l₁ ++ l₂) = true → pairsOk p l₁ = true := by
  intro l₁
  induction l₁ with
  | nil => intro l₂ _; rfl
  | cons c r ih =>
    intro l₂ h
    rw [List.cons_append] at h
    have h2 := (pairs_cons0 p c (r ++ l₂)).mp h
    rw [pairs_cons0]
    refine ⟨?_, ih l₂ h2.2⟩
    intro b hb
    apply h2.1
    cases r with
    | nil => simp at hb
    | cons d t => simpa using hb

theorem pairs_dropWhile (p : Char → Char → Bool) (q : Char → Bool) :
    ∀ l : List Char, pairsOk p l = true → pairsOk p (l.dropWhile q) = true := by
  intro l
  induction l with
  | nil => intro _; rfl
  | cons c r ih =>
    intro h
    by_cases hq : q c = true
    · rw [List.dropWhile_cons_of_pos hq]
      exact ih (pairs_tail p c r h)
    · rw [List.dropWhile_cons_of_neg (by simpa using hq)]
      exact h

theorem pairs_strip (p : Char → Char → Bool) (l : List Char)
    (h : pairsOk p l = true) : pairsOk p (strip l) = true := by
  have h1 : pairsOk p (stripL l) = true := pairs_dropWhile p isWs l h
  obtain ⟨t, ht⟩ := stripR_take (stripL l)
  exact pairs_append_left p (stripR (stripL l)) t (by rw [← ht]; exact h1)

theorem all_of_sublist {p : Char → Bool} {la lb : List Char}
    (hs : List.Sublist la lb) (h : lb.all p = true) : la.all p = true := by
  rw [List.all_eq_true] at h ⊢
  intro c hc
  exact h c (hs.subset hc)

/- ------------------------------------------------------------------ -/
/- Lemmas for sub_spaces -/

theorem not_st_ne_tab {c : Char} (h : isST c = false) : (c == '\t') = false := by
  cases hc : c == '\t' with
  | false => rfl
  | true =>
    have : c = '\t' := by simpa using hc
    subst this
    simp [isST] at h

theorem sub_spaces_head (d : Char) (r : List Char) (hd : isST d = false) :
    (sub_spaces (d :: r)).head? = some d := by
  cases r with
  | nil => simp [sub_spaces, hd]
  | cons e t => simp [sub_spaces, hd]

theorem sub_spaces_noTab : ∀ l : List Char, (sub_spaces l).all (fun c => !(c == '\t')) = true := by
  intro l
  induction l with
  | nil => rfl
  | cons c r ih =>
    cases r with
    | nil =>
      by_cases h : isST c = true
      · simp [sub_spaces, h]
      · rw [show sub_spaces [c] = [c] by simp [sub_spaces, h]]
        simp [not_st_ne_tab (by simpa using h)]
    | cons d t =>
      by_cases h : isST c = true
      · by_cases h2 : isST d = true
        · simpa [sub_spaces, h, h2] using ih
        · rw [show sub_spaces (c :: d :: t) = ' ' :: sub_spaces (d :: t) by
            simp [sub_spaces, h, h2]]
          rw [List.all_cons]
          simpa using ih
      · rw [show sub_spaces (c :: d :: t) = c :: sub_spaces (d :: t) by
          simp [sub_spaces, h]]
        rw [List.all_cons]
        simp [not_st_ne_tab (by simpa using h)]
        simpa using ih

theorem sub_spaces_pairs : ∀ l : List Char, pairsOk stOkP (sub_spaces l) = true := by
  intro l
  induction l with
  | nil => rfl
  | cons c r ih =>
    cases r with
    | nil =>
      by_cases h : isST c = true <;> simp [sub_spaces, h, pairsOk]
    | cons d t =>
      by_cases h : isST c = true
      · by_cases h2 : isST d = true
        · simpa [sub_spaces, h, h2] using ih
        · rw [show sub_spaces (c :: d :: t) = ' ' :: sub_spaces (d :: t) by
            simp [sub_spaces, h, h2]]
          rw [pairs_cons0]
          refine ⟨?_, ih⟩
          intro b hb
          rw [sub_spaces_head d t (by simpa using h2)] at hb
          cases hb
          simp [stOkP, h2]
      · rw [show sub_spaces (c :: d :: t) = c :: sub_spaces (d :: t) by
          simp [sub_spaces, h]]
        rw [pairs_cons0]
        refine ⟨?_, ih⟩
        intro b hb
        simp [stOkP, h]

theorem sub_spaces_eq_self :
    ∀ l : List Char, l.all (fun c => !(c == '\t')) = true → pairsOk stOkP l = true →
      sub_spaces l = l := by
  intro l
  induction l with
  | nil => intro _ _; rfl
  | cons c r ih =>
    intro hall hp
    cases r with
    | nil =>
      by_cases h : isST c = true
      · have : c = ' ' := by
          rcases (by simpa [isST] using h : c = ' ' ∨ c = '\t') with h1 | h1
          · exact h1
          · subst h1; simp at hall
        subst this
        simp [sub_spaces]
      · simp [sub_spaces, h]
    | cons d t =>
      have hall2 : (d :: t).all (fun c => !(c == '\t')) = true := by
        rw [List.all_cons] at hall
        exact ((Bool.and_eq_true _ _).mp hall).2
      have hp2 : pairsOk stOkP (d :: t) = true := pairs_tail stOkP c (d :: t) hp
      by_cases h : isST c = true
      · have hc : c = ' ' := by
          rcases (by simpa [isST] using h : c = ' ' ∨ c = '\t') with h1 | h1
          · exact h1
          · subst h1; simp at hall
        have hd : isST d = false := by
          have := ((pairs_cons0 stOkP c (d :: t)).mp hp).1 d rfl
          simp [stOkP, h] at this
          simpa using this
        rw [show sub_spaces (c :: d :: t) = ' ' :: sub_spaces (d :: t) by
          simp [sub_spaces, h, hd]]
        rw [ih hall2 hp2, hc]
      · rw [show sub_spaces (c :: d :: t) = c :: sub_spaces (d :: t) by
          simp [sub_spaces, h]]
        rw [ih hall2 hp2]

theorem mem_sub_spaces : ∀ (l : List Char) (c : Char), c ∈ sub_spaces l → c ∈ l ∨ c = ' ' := by
  intro l
  induction l with
  | nil => intro c hc; simp [sub_spaces] at hc
  | cons a r ih =>
    intro c hc
    cases r with
    | nil =>
      by_cases h : isST a = true
      · simp [sub_spaces, h] at hc
        exact Or.inr hc
      · simp [sub_spaces, h] at hc
        simp [hc]
    | cons d t =>
      by_cases h : isST a = true
      · by_cases h2 : isST d = true
        · rw [show sub_spaces (a :: d :: t) = sub_spaces (d :: t) by
            simp [sub_spaces, h, h2]] at hc
          rcases ih c hc with h3 | h3
          · exact Or.inl (List.mem_cons_of_mem a h3)
          · exact Or.inr h3
        · rw [show sub_spaces (a :: d :: t) = ' ' :: sub_spaces (d :: t) by
            simp [sub_spaces, h, h2]] at hc
          rcases List.mem_cons.mp hc with h3 | h3
          · exact Or.inr h3
          · rcases ih c h3 with h4 | h4
            · exact Or.inl (List.mem_cons_of_mem a h4)
            · exact Or.inr h4
      · rw [show sub_spaces (a :: d :: t) = a :: sub_spaces (d :: t) by
          simp [sub_spaces, h]] at hc
        rcases List.mem_cons.mp hc with h3 | h3
        · exact Or.inl (by simp [h3])
        · rcases ih c h3 with h4 | h4
          · exact Or.inl (List.mem_cons_of_mem a h4)
          · exact Or.inr h4

/- ------------------------------------------------------------------ -/
/- Lemmas for nlDel / nlOk -/

theorem containsNl_cons (c : Char) (l : List Char) :
    containsNl (c :: l) = ((c == '\n') || containsNl l) := by
  simp [containsNl]

theorem nlDel_twNl :
    ∀ (r : List Char) (s : Bool),
      containsNl ((nlDel s r).takeWhile isWs) = true →
        containsNl (r.takeWhile isWs) = true := by
  intro r
  induction r with
  | nil => intro s h; cases s <;> simp [nlDel, List.takeWhile, containsNl] at h
  | cons c t ih =>
    intro s h
    by_cases hc : isWs c = true
    · cases s with
      | false =>
        rw [show nlDel false (c :: t) = c :: nlDel (c == '\n') t by simp [nlDel, hc]] at h
        rw [List.takeWhile_cons_of_pos hc, containsNl_cons] at h
        rw [List.takeWhile_cons_of_pos hc, containsNl_cons]
        rcases (Bool.or_eq_true _ _).mp h with h1 | h1
        · simp [h1]
        · simp [ih (c == '\n') h1]
      | true =>
        cases hnl : containsNl (t.takeWhile isWs) with
        | true =>
          rw [List.takeWhile_cons_of_pos hc, containsNl_cons, hnl]
          simp
        | false =>
          rw [show nlDel true (c :: t) = c :: nlDel true t by simp [nlDel, hc, hnl]] at h
          rw [List.takeWhile_cons_of_pos hc, containsNl_cons] at h
          rw [List.takeWhile_cons_of_pos hc, containsNl_cons]
          rcases (Bool.or_eq_true _ _).mp h with h1 | h1
          · simp [h1]
          · simp [ih true h1]
    · have hd : nlDel s (c :: t) = c :: nlDel false t := by
        cases s <;> simp [nlDel, hc]
      rw [hd, List.takeWhile_cons_of_neg (by simpa using hc)] at h
      simp [containsNl] at h

theorem nlOk_nlDel : ∀ (l : List Char) (s : Bool), nlOk s (nlDel s l) = true := by
  intro l
  induction l with
  | nil => intro s; cases s <;> rfl
  | cons c t ih =>
    intro s
    by_cases hc : isWs c = true
    · cases s with
      | false =>
        rw [show nlDel false (c :: t) = c :: nlDel (c == '\n') t by simp [nlDel, hc]]
        rw [show nlOk false (c :: nlDel (c == '\n') t) =
            nlOk (c == '\n') (nlDel (c == '\n') t) by simp [nlOk, hc]]
        exact ih (c == '\n')
      | true =>
        cases hnl : containsNl (t.takeWhile isWs) with
        | true =>
          rw [show nlDel true (c :: t) = nlDel true t by simp [nlDel, hc, hnl]]
          exact ih true
        | false =>
          rw [show nlDel true (c :: t) = c :: nlDel true t by simp [nlDel, hc, hnl]]
          rw [show nlOk true (c :: nlDel true t) =
              (!containsNl ((nlDel true t).takeWhile isWs) && nlOk true (nlDel true t)) by
            simp [nlOk, hc]]
          refine (Bool.and_eq_true _ _).mpr ⟨?_, ih true⟩
          cases hx : containsNl ((nlDel true t).takeWhile isWs) with
          | false => rfl
          | true =>
            rw [nlDel_twNl t true hx] at hnl
            exact absurd hnl (by simp)
    · have hd : nlDel s (c :: t) = c :: nlDel false t := by
        cases s <;> simp [nlDel, hc]
      have ho : nlOk s (c :: nlDel false t) = nlOk false (nlDel false t) := by
        cases s <;> simp [nlOk, hc]
      rw [hd, ho]
      exact ih false

theorem nlDel_eq_self : ∀ (l : List Char) (s : Bool), nlOk s l = true → nlDel s l = l := by
  intro l
  induction l with
  | nil => intro s _; cases s <;> rfl
  | cons c t ih =>
    intro s h
    by_cases hc : isWs c = true
    · cases s with
      | false =>
        rw [show nlOk false (c :: t) = nlOk (c == '\n') t by simp [nlOk, hc]] at h
        rw [show nlDel false (c :: t) = c :: nlDel (c == '\n') t by simp [nlDel, hc]]
        rw [ih (c == '\n') h]
      | true =>
        rw [show nlOk true (c :: t) =
            (!containsNl (t.takeWhile isWs) && nlOk true t) by simp [nlOk, hc]] at h
        have h1 := (Bool.and_eq_true _ _).mp h
        have hnl : containsNl (t.takeWhile isWs) = false := by
          cases hx : containsNl (t.takeWhile isWs) with
          | false => rfl
          | true => rw [hx] at h1; simp at h1
        rw [show nlDel true (c :: t) = c :: nlDel true t by simp [nlDel, hc, hnl]]
        rw [ih true h1.2]
    · have hd : nlDel s (c :: t) = c :: nlDel false t := by
        cases s <;> simp [nlDel, hc]
      have ho : nlOk s (c :: t) = nlOk false t := by
        cases s <;> simp [nlOk, hc]
      rw [ho] at h
      rw [hd, ih false h]

theorem nlOk_false_of : ∀ (l : List Char) (s : Bool), nlOk s l = true → nlOk false l = true := by
  intro l
  induction l with
  | nil => intro s _; rfl
  | cons c t ih =>
    intro s h
    cases s with
    | false => exact h
    | true =>
      by_cases hc : isWs c = true
      · rw [show nlOk true (c :: t) =
            (!containsNl (t.takeWhile isWs) && nlOk true t) by simp [nlOk, hc]] at h
        have h1 := (Bool.and_eq_true _ _).mp h
        rw [show nlOk false (c :: t) = nlOk (c == '\n') t by simp [nlOk, hc]]
        cases hcn : c == '\n' with
        | true => exact h1.2
        | false => exact ih true h1.2
      · rw [show nlOk true (c :: t) = nlOk false t by simp [nlOk, hc]] at h
        rw [show nlOk false (c :: t) = nlOk false t by simp [nlOk, hc]]
        exact h

theorem nlOk_tail (c : Char) (t : List Char) (s : Bool) (h : nlOk s (c :: t) = true) :
    nlOk false t = true := by
  by_cases hc : isWs c = true
  · cases s with
    | false =>
      rw [show nlOk false (c :: t) = nlOk (c == '\n') t by simp [nlOk, hc]] at h
      exact nlOk_false_of t (c == '\n') h
    | true =>
      rw [show nlOk true (c :: t) =
          (!containsNl (t.takeWhile isWs) && nlOk true t) by simp [nlOk, hc]] at h
      exact nlOk_false_of t true ((Bool.and_eq_true _ _).mp h).2
  · have ho : nlOk s (c :: t) = nlOk false t := by
      cases s <;> simp [nlOk, hc]
    rw [ho] at h
    exact h

theorem nlOk_dropWhile : ∀ l : List Char, nlOk false l = true →
    nlOk false (l.dropWhile isWs) = true := by
  intro l
  induction l with
  | nil => intro _; rfl
  | cons c t ih =>
    intro h
    by_cases hc : isWs c = true
    · rw [List.dropWhile_cons_of_pos hc]
      exact ih (nlOk_tail c t false h)
    · rw [List.dropWhile_cons_of_neg (by simpa using hc)]
      exact h

theorem twNl_append_mono :
    ∀ (l₁ l₂ : List Char), containsNl (l₁.takeWhile isWs) = true →
      containsNl ((l₁ ++ l₂).takeWhile isWs) = true := by
  intro l₁
  induction l₁ with
  | nil => intro l₂ h; simp [containsNl] at h
  | cons c t ih =>
    intro l₂ h
    by_cases hc : isWs c = true
    · rw [List.takeWhile_cons_of_pos hc, containsNl_cons] at h
      rw [List.cons_append, List.takeWhile_cons_of_pos hc, containsNl_cons]
      rcases (Bool.or_eq_true _ _).mp h with h1 | h1
      · simp [h1]
      · simp [ih l₂ h1]
    · rw [List.takeWhile_cons_of_neg (by simpa using hc)] at h
      simp [containsNl] at h

theorem nlOk_append_left :
    ∀ (l₁ : List Char) (s : Bool) (l₂ : List Char), nlOk s (l₁ ++ l₂) = true →
      nlOk s l₁ = true := by
  intro l₁
  induction l₁ with
  | nil => intro s l₂ _; cases s <;> rfl
  | cons c t ih =>
    intro s l₂ h
    rw [List.cons_append] at h
    by_cases hc : isWs c = true
    · cases s with
      | false =>
        rw [show nlOk false (c :: (t ++ l₂)) = nlOk (c == '\n') (t ++ l₂) by
          simp [nlOk, hc]] at h
        rw [show nlOk false (c :: t) = nlOk (c == '\n') t by simp [nlOk, hc]]
        exact ih (c == '\n') l₂ h
      | true =>
        rw [show nlOk true (c :: (t ++ l₂)) =
            (!containsNl ((t ++ l₂).takeWhile isWs) && nlOk true (t ++ l₂)) by
          simp [nlOk, hc]] at h
        have h1 := (Bool.and_eq_true _ _).mp h
        rw [show nlOk true (c :: t) =
            (!containsNl (t.takeWhile isWs) && nlOk true t) by simp [nlOk, hc]]
        refine (Bool.and_eq_true _ _).mpr ⟨?_, ih true l₂ h1.2⟩
        cases hx : containsNl (t.takeWhile isWs) with
        | false => rfl
        | true =>
          rw [twNl_append_mono t l₂ hx] at h1
          simp at h1
    · have ho : ∀ X, nlOk s (c :: X) = nlOk false X := by
        intro X; cases s <;> simp [nlOk, hc]
      rw [ho] at h
      rw [ho]
      exact ih false l₂ h

theorem nlOk_strip (l : List Char) (h : nlOk false l = true) :
    nlOk false (strip l) = true := by
  have h1 := nlOk_dropWhile l h
  obtain ⟨t, ht⟩ := stripR_take (stripL l)
  exact nlOk_append_left (stripR (stripL l)) false t (by rw [← ht]; exact h1)

theorem nlDel_head_nl :
    ∀ r : List Char, containsNl (r.takeWhile isWs) = true →
      (nlDel true r).head? = some '\n' := by
  intro r
  induction r with
  | nil => intro h; simp [containsNl] at h
  | cons c t ih =>
    intro h
    by_cases hc : isWs c = true
    · rw [List.takeWhile_cons_of_pos hc, containsNl_cons] at h
      cases hnl : containsNl (t.takeWhile isWs) with
      | true =>
        rw [show nlDel true (c :: t) = nlDel true t by simp [nlDel, hc, hnl]]
        exact ih hnl
      | false =>
        have hcn : (c == '\n') = true := by
          rcases (Bool.or_eq_true _ _).mp h with h1 | h1
          · exact h1
          · rw [h1] at hnl; cases hnl
        have hc' : c = '\n' := by simpa using hcn
        rw [show nlDel true (c :: t) = c :: nlDel true t by simp [nlDel, hc, hnl]]
        simp [hc']
    · rw [List.takeWhile_cons_of_neg (by simpa using hc)] at h
      simp [containsNl] at h

theorem nlDel_head (l : List Char) (s : Bool) :
    (nlDel s l).head? = l.head? ∨ (nlDel s l).head? = some '\n' := by
  cases l with
  | nil => left; cases s <;> rfl
  | cons c t =>
    by_cases hc : isWs c = true
    · cases s with
      | false =>
        left
        rw [show nlDel false (c :: t) = c :: nlDel (c == '\n') t by simp [nlDel, hc]]
        rfl
      | true =>
        cases hnl : containsNl (t.takeWhile isWs) with
        | false =>
          left
          rw [show nlDel true (c :: t) = c :: nlDel true t by simp [nlDel, hc, hnl]]
          rfl
        | true =>
          right
          rw [show nlDel true (c :: t) = nlDel true t by simp [nlDel, hc, hnl]]
          exact nlDel_head_nl t hnl
    · left
      have hd : nlDel s (c :: t) = c :: nlDel false t := by
        cases s <;> simp [nlDel, hc]
      rw [hd]
      rfl

theorem nlDel_pairs :
    ∀ (l : List Char) (s : Bool), pairsOk stOkP l = true →
      pairsOk stOkP (nlDel s l) = true := by
  intro l
  induction l with
  | nil => intro s _; cases s <;> rfl
  | cons c t ih =>
    intro s h
    have ht := pairs_tail stOkP c t h
    have hkeep : ∀ s', pairsOk stOkP (c :: nlDel s' t) = true := by
      intro s'
      rw [pairs_cons0]
      refine ⟨?_, ih s' ht⟩
      intro b hb
      rcases nlDel_head t s' with he | he
      · rw [he] at hb
        exact ((pairs_cons0 stOkP c t).mp h).1 b hb
      · rw [he] at hb
        cases hb
        have : isST '\n' = false := by decide
        simp [stOkP, this]
    by_cases hc : isWs c = true
    · cases s with
      | false =>
        rw [show nlDel false (c :: t) = c :: nlDel (c == '\n') t by simp [nlDel, hc]]
        exact hkeep (c == '\n')
      | true =>
        cases hnl : containsNl (t.takeWhile isWs) with
        | true =>
          rw [show nlDel true (c :: t) = nlDel true t by simp [nlDel, hc, hnl]]
          exact ih true ht
        | false =>
          rw [show nlDel true (c :: t) = c :: nlDel true t by simp [nlDel, hc, hnl]]
          exact hkeep true
    · have hd : nlDel s (c :: t) = c :: nlDel false t := by
        cases s <;> simp [nlDel, hc]
      rw [hd]
      exact hkeep false

theorem nlDel_sublist : ∀ (l : List Char) (s : Bool), List.Sublist (nlDel s l) l := by
  intro l
  induction l with
  | nil => intro s; cases s <;> exact List.Sublist.refl []
  | cons c t ih =>
    intro s
    by_cases hc : isWs c = true
    · cases s with
      | false =>
        rw [show nlDel false (c :: t) = c :: nlDel (c == '\n') t by simp [nlDel, hc]]
        exact (ih (c == '\n')).cons₂ c
      | true =>
        cases hnl : containsNl (t.takeWhile isWs) with
        | true =>
          rw [show nlDel true (c :: t) = nlDel true t by simp [nlDel, hc, hnl]]
          exact (ih true).cons c
        | false =>
          rw [show nlDel true (c :: t) = c :: nlDel true t by simp [nlDel, hc, hnl]]
          exact (ih true).cons₂ c
    · have hd : nlDel s (c :: t) = c :: nlDel false t := by
        cases s <;> simp [nlDel, hc]
      rw [hd]
      exact (ih false).cons₂ c

theorem mem_clean_chars (x : List Char) (c : Char) (hc : c ∈ clean_text x) :
    forbiddenChar c = false := by
  have h1 : c ∈ nlDel false (sub_spaces (sub_ctrl x)) := (strip_sublist _).subset hc
  have h2 : c ∈ sub_spaces (sub_ctrl x) := (nlDel_sublist _ false).subset h1
  rcases mem_sub_spaces _ c h2 with h3 | h3
  · have h4 := List.mem_filter.mp h3
    simpa using h4.2
  · subst h3; decide

theorem noDouble_of_pairs : ∀ l : List Char, pairsOk stOkP l = true → hasDoubleST l = false := by
  intro l
  induction l with
  | nil => intro _; rfl
  | cons a t ih =>
    intro h
    cases t with
    | nil => rfl
    | cons b r =>
      show ((isST a && isST b) || hasDoubleST (b :: r)) = false
      have h1 := ((pairs_cons0 stOkP a (b :: r)).mp h).1 b rfl
      have h2 := ih (pairs_tail stOkP a (b :: r) h)
      have h3 : (isST a && isST b) = false := by
        cases hx : (isST a && isST b) with
        | false => rfl
        | true => rw [show stOkP a b = !(isST a && isST b) from rfl, hx] at h1; simp at h1
      rw [h2, h3]
      rfl

theorem noTriple_of_nlOk : ∀ (l : List Char) (s : Bool), nlOk s l = true →
    hasTripleNl l = false := by
  intro l
  induction l with
  | nil => intro s _; rfl
  | cons a t ih =>
    intro s h
    cases t with
    | nil => rfl
    | cons b r =>
      cases r with
      | nil => rfl
      | cons c u =>
        show ((a == '\n' && b == '\n' && c == '\n') || hasTripleNl (b :: c :: u)) = false
        have htail : nlOk false (b :: c :: u) = true := nlOk_tail a (b :: c :: u) s h
        have h2 := ih false htail
        rw [h2, Bool.or_false]
        cases ha : a == '\n' with
        | false => simp [ha]
        | true =>
          cases hb : b == '\n' with
          | false => simp [hb]
          | true =>
            cases hcc : c == '\n' with
            | false => simp [hcc]
            | true =>
              exfalso
              have ha' : a = '\n' := by simpa using ha
              have hb' : b = '\n' := by simpa using hb
              have hc' : c = '\n' := by simpa using hcc
              subst ha'; subst hb'; subst hc'
              have hwnl : isWs '\n' = true := by decide
              have hcn : containsNl (('\n' :: u).takeWhile isWs) = true := by
                rw [List.takeWhile_cons_of_pos hwnl, containsNl_cons]
                simp
              have hcn2 : containsNl (('\n' :: '\n' :: u).takeWhile isWs) = true := by
                rw [List.takeWhile_cons_of_pos hwnl, containsNl_cons]
                simp
              cases s with
              | false =>
                rw [show nlOk false ('\n' :: '\n' :: '\n' :: u) =
                    nlOk true ('\n' :: '\n' :: u) by simp [nlOk, hwnl]] at h
                rw [show nlOk true ('\n' :: '\n' :: u) =
                    (!containsNl (('\n' :: u).takeWhile isWs) &&
                      nlOk true ('\n' :: u)) by simp [nlOk, hwnl]] at h
                rw [hcn] at h
                simp at h
              | true =>
                rw [show nlOk true ('\n' :: '\n' :: '\n' :: u) =
                    (!containsNl (('\n' :: '\n' :: u).takeWhile isWs) &&
                      nlOk true ('\n' :: '\n' :: u)) by simp [nlOk, hwnl]] at h
                rw [hcn2] at h
                simp at h

/- ------------------------------------------------------------------ -/
/- Helper lemmas for splitFirst and the table-span segmentation -/

theorem isPrefixOf_decomp (pat l : List Char) (h : pat.isPrefixOf l = true) :
    l = pat ++ l.drop pat.length := by
  obtain ⟨t, ht⟩ := List.isPrefixOf_iff_prefix.mp h
  subst ht
  rw [List.drop_left]

theorem splitFirst_decomp :
    ∀ (l pat a b : List Char), splitFirst pat l = some (a, b) → l = a ++ pat ++ b := by
  intro l
  induction l with
  | nil =>
    intro pat a b h
    unfold splitFirst at h
    by_cases hp : pat.isPrefixOf ([] : List Char) = true
    · have hpat : pat = [] := by
        have := isPrefixOf_decomp pat [] hp
        cases pat with
        | nil => rfl
        | cons c r => simp at this
      simp [hp] at h
      obtain ⟨ha, hb⟩ := h
      subst ha; subst hb; subst hpat; rfl
    · simp [hp] at h
  | cons c r ih =>
    intro pat a b h
    unfold splitFirst at h
    by_cases hp : pat.isPrefixOf (c :: r) = true
    · simp [hp] at h
      obtain ⟨ha, hb⟩ := h
      subst ha; subst hb
      simpa using isPrefixOf_decomp pat (c :: r) hp
    · simp [hp] at h
      cases hs : splitFirst pat r with
      | none => rw [hs] at h; simp at h
      | some ab =>
        obtain ⟨a', b'⟩ := ab
        rw [hs] at h
        simp at h
        obtain ⟨ha, hb⟩ := h
        subst ha; subst hb
        have := ih pat a' b' hs
        simp [this]

theorem splitFirst_len {pat l a b : List Char} (h : splitFirst pat l = some (a, b)) :
    l.length = a.length + pat.length + b.length := by
  have := splitFirst_decomp l pat a b h
  subst this
  simp [List.length_append]
  omega

theorem compactF_eq_joinClean :
    ∀ (f : Nat) (l : List Char), l.length ≤ f → compactF f l = joinClean (segsF f l) := by
  intro f
  induction f with
  | zero =>
    intro l hl
    have : l = [] := List.length_eq_zero.mp (Nat.le_zero.mp hl)
    subst this
    rfl
  | succ f ih =>
    intro l hl
    show compactF (f + 1) l = joinClean (segsF (f + 1) l)
    unfold compactF segsF
    cases h1 : splitFirst tOpen l with
    | none => simp [joinClean]
    | some pr =>
      obtain ⟨pre, rest⟩ := pr
      cases h2 : splitFirst tClose rest with
      | none => simp [h2, joinClean]
      | some mr =>
        obtain ⟨mid, rest2⟩ := mr
        have l1 := splitFirst_len h1
        have l2 := splitFirst_len h2
        have hto : tOpen.length = 7 := by decide
        have htc : tClose.length = 8 := by decide
        have hlen : rest2.length ≤ f := by omega
        simp [h2, joinClean, ih rest2 hlen, List.append_assoc]

theorem joinSegs_segsF :
    ∀ (f : Nat) (l : List Char), l.length ≤ f → joinSegs (segsF f l) = l := by
  intro f
  induction f with
  | zero =>
    intro l hl
    have : l = [] := List.length_eq_zero.mp (Nat.le_zero.mp hl)
    subst this
    rfl
  | succ f ih =>
    intro l hl
    show joinSegs (segsF (f + 1) l) = l
    unfold segsF
    cases h1 : splitFirst tOpen l with
    | none => simp [joinSegs]
    | some pr =>
      obtain ⟨pre, rest⟩ := pr
      cases h2 : splitFirst tClose rest with
      | none => simp [h2, joinSegs]
      | some mr =>
        obtain ⟨mid, rest2⟩ := mr
        have l1 := splitFirst_len h1
        have l2 := splitFirst_len h2
        have hto : tOpen.length = 7 := by decide
        have htc : tClose.length = 8 := by decide
        have hlen : rest2.length ≤ f := by omega
        have e1 := splitFirst_decomp l tOpen pre rest h1
        have e2 := splitFirst_decomp rest tClose mid rest2 h2
        simp only [h2, joinSegs, ih rest2 hlen]
        rw [e1, e2]
        simp [List.append_assoc]

theorem compactF_no_span (l : List Char) (h : hasTableSpan l = false) :
    ∀ f, compactF f l = l := by
  intro f
  cases f with
  | zero => rfl
  | succ f =>
    unfold compactF
    unfold hasTableSpan at h
    cases h1 : splitFirst tOpen l with
    | none => simp
    | some pr =>
      obtain ⟨pre, rest⟩ := pr
      rw [h1] at h
      simp only at h
      cases h2 : splitFirst tClose rest with
      | none => simp [h2]
      | some mr => rw [h2] at h; simp at h

/- ------------------------------------------------------------------ -/
/- Helper lemmas for the pair scanner and the table-block cleaner -/

theorem pairs_cons (p : Char → Char → Bool) (a : Char) (l : List Char) :
    pairsOk p (a :: l) = true ↔
      (∀ b, l.head? = some b → p a b = true) ∧ pairsOk p l = true := by
  cases l with
  | nil => simp [pairsOk]
  | cons b r =>
    show (p a b && pairsOk p (b :: r)) = true ↔ _
    constructor
    · intro h
      have h1 := (Bool.and_eq_true _ _).mp h
      exact ⟨fun b' hb' => by cases hb'; exact h1.1, h1.2⟩
    · intro ⟨h1, h2⟩
      exact (Bool.and_eq_true _ _).mpr ⟨h1 b rfl, h2⟩

theorem gtWsDel_head_ws (r : List Char) :
    (gtWsDel true r).head? = none ∨
      ∃ d, (gtWsDel true r).head? = some d ∧ isWs d = false := by
  induction r with
  | nil => left; rfl
  | cons c r ih =>
    by_cases hc : isWs c = true
    · simpa [gtWsDel, hc] using ih
    · right
      exact ⟨c, by simp [gtWsDel, hc], by simpa using hc⟩

theorem gtWsDel_pairs : ∀ (s : Bool) (l : List Char), pairsOk gtOk (gtWsDel s l) = true := by
  intro s l
  induction l generalizing s with
  | nil => rfl
  | cons c r ih =>
    by_cases h : (s && isWs c) = true
    · simpa [gtWsDel, h] using ih true
    · rw [show gtWsDel s (c :: r) = c :: gtWsDel (c == '>') r by simp [gtWsDel, h]]
      rw [pairs_cons]
      refine ⟨?_, ih (c == '>')⟩
      intro b hb
      by_cases hgt : c = '>'
      · subst hgt
        rcases gtWsDel_head_ws r with hn | ⟨d, hd, hws⟩
        · simp [hn] at hb
        · rw [show ('>' == '>') = true from rfl] at hb
          rw [hd] at hb
          cases hb
          simp [gtOk, hws]
      · simp [gtOk, hgt]

theorem wsLtDel_head_lt (r : List Char) (h : (r.dropWhile isWs).head? = some '<') :
    (wsLtDel r).head? = some '<' := by
  induction r with
  | nil => simp [List.dropWhile] at h
  | cons c r ih =>
    by_cases hc : isWs c = true
    · rw [List.dropWhile_cons_of_pos hc] at h
      simp [wsLtDel, hc, h]
      exact ih h
    · rw [List.dropWhile_cons_of_neg (by simpa using hc)] at h
      simp at h
      subst h
      simp [wsLtDel, hc]

theorem wsLtDel_head (l : List Char) :
    (wsLtDel l).head? = l.head? ∨ (wsLtDel l).head? = some '<' := by
  cases l with
  | nil => left; rfl
  | cons c r =>
    by_cases h : (isWs c && ((r.dropWhile isWs).head? == some '<')) = true
    · right
      have h2 : (r.dropWhile isWs).head? = some '<' := by
        have := (Bool.and_eq_true _ _).mp h
        simpa using this.2
      rw [show wsLtDel (c :: r) = wsLtDel r by simp [wsLtDel, h]]
      exact wsLtDel_head_lt r h2
    · left
      simp [wsLtDel, h]

theorem wsLtDel_pairs (l : List Char) (h : pairsOk gtOk l = true) :
    pairsOk gtOk (wsLtDel l) = true := by
  induction l with
  | nil => rfl
  | cons c r ih =>
    have hr : pairsOk gtOk r = true := ((pairs_cons gtOk c r).mp h).2
    by_cases hd : (isWs c && ((r.dropWhile isWs).head? == some '<')) = true
    · rw [show wsLtDel (c :: r) = wsLtDel r by simp [wsLtDel, hd]]
      exact ih hr
    · rw [show wsLtDel (c :: r) = c :: wsLtDel r by simp [wsLtDel, hd]]
      rw [pairs_cons]
      refine ⟨?_, ih hr⟩
      intro b hb
      rcases wsLtDel_head r with he | he
      · rw [he] at hb
        exact ((pairs_cons gtOk c r).mp h).1 b hb
      · rw [he] at hb
        cases hb
        have hlt : isWs '<' = false := by decide
        simp [gtOk, hlt]

/- ------------------------------------------------------------------ -/
/- Lemmas for the chunk pipeline indices -/

theorem segGo_mem :
    ∀ (lines current : List (List Char)) (s : List Char), s ∈ segGo current lines →
      (∃ w, s = strip w) ∧ s ≠ [] := by
  intro lines
  induction lines with
  | nil =>
    intro current s hs
    show _ ∧ _
    unfold segGo flushSec at hs
    cases current with
    | nil => simp at hs
    | cons l0 t0 =>
      by_cases he : (strip (joinNl (l0 :: t0))).isEmpty = true
      · simp [he] at hs
      · rw [if_neg he] at hs
        simp at hs
        subst hs
        exact ⟨⟨joinNl (l0 :: t0), rfl⟩, fun hn => he (by rw [hn]; rfl)⟩
  | cons ln rest ih =>
    intro current s hs
    unfold segGo at hs
    by_cases hh : isHeaderLine ln = true
    · rw [if_pos hh] at hs
      rcases List.mem_append.mp hs with h1 | h1
      · unfold flushSec at h1
        cases current with
        | nil => simp at h1
        | cons l0 t0 =>
          by_cases he : (strip (joinNl (l0 :: t0))).isEmpty = true
          · simp [he] at h1
          · rw [if_neg he] at h1
            simp at h1
            subst h1
            exact ⟨⟨joinNl (l0 :: t0), rfl⟩, fun hn => he (by rw [hn]; rfl)⟩
      · exact ih [ln] s h1
    · rw [if_neg hh] at hs
      exact ih (current ++ [ln]) s hs

theorem sections_strip_ne_nil (t : List Char) (s : List Char)
    (hs : s ∈ split_by_headers_manual t) : strip s ≠ [] := by
  obtain ⟨⟨w, hw⟩, hne⟩ := segGo_mem (splitLines t) [] s hs
  rw [hw] at hne ⊢
  rw [strip_idem]
  exact hne

theorem merge_strip_ne_nil :
    ∀ (n : Nat) (l : List (List Char)) (minc : Nat), l.length ≤ n →
      (∀ u ∈ l, strip u ≠ []) →
      ∀ s ∈ merge_small_chunks l minc, strip s ≠ [] := by
  intro n
  induction n with
  | zero =>
    intro l minc hl _ s hs
    have : l = [] := List.length_eq_zero.mp (Nat.le_zero.mp hl)
    subst this
    simp [merge_small_chunks] at hs
  | succ n ih =>
    intro l minc hl h s hs
    rcases l with _ | ⟨u1, rest1⟩
    · simp [merge_small_chunks] at hs
    rcases rest1 with _ | ⟨u2, rest⟩
    · simp [merge_small_chunks] at hs
      rw [hs]
      exact h u1 (by simp)
    have hlen2 : (u2 :: rest).length ≤ n := by
      rw [List.length_cons, List.length_cons] at hl
      rw [List.length_cons]
      omega
    have hlen1 : rest.length ≤ n := by
      rw [List.length_cons] at hlen2
      omega
    by_cases hsmall : (strip u1).length < minc
    · rw [show merge_small_chunks (u1 :: u2 :: rest) minc =
          (u1 ++ str "\n\n" ++ u2) :: merge_small_chunks rest minc by
        simp [merge_small_chunks, hsmall]] at hs
      rcases List.mem_cons.mp hs with h1 | h1
      · rw [h1]
        exact strip_append_ne_nil _ u2
          (strip_append_ne_nil u1 (str "\n\n") (h u1 (by simp)))
      · exact ih rest minc hlen1 (fun u hu => h u (by simp [hu])) s h1
    · rw [show merge_small_chunks (u1 :: u2 :: rest) minc =
          u1 :: merge_small_chunks (u2 :: rest) minc by
        simp [merge_small_chunks, hsmall]] at hs
      rcases List.mem_cons.mp hs with h1 | h1
      · rw [h1]
        exact h u1 (by simp)
      · exact ih (u2 :: rest) minc hlen2 (fun u hu => h u (by simp [hu])) s h1

/- ------------------------------------------------------------------ -/
/- Lemmas for the header segmenter (C8) -/

theorem twLenLe {α : Type} (p : α → Bool) (l : List α) :
    (l.takeWhile p).length ≤ l.length := by
  conv_rhs => rw [← List.takeWhile_append_dropWhile (p := p) (l := l)]
  rw [List.length_append]
  omega

theorem rdropRtake {α : Type} (p : α → Bool) (l : List α) :
    List.rdropWhile p l ++ List.rtakeWhile p l = l := by
  rw [List.rdropWhile, List.rtakeWhile, ← List.reverse_append,
    List.takeWhile_append_dropWhile, List.reverse_reverse]

theorem dropWhile_append_all {α : Type} {p : α → Bool} :
    ∀ (a y : List α), (∀ c ∈ a, p c = true) → (a ++ y).dropWhile p = y.dropWhile p := by
  intro a
  induction a with
  | nil => intro y _; rfl
  | cons c t ih =>
    intro y h
    rw [List.cons_append, List.dropWhile_cons_of_pos (h c (by simp))]
    exact ih y fun d hd => h d (by simp [hd])

theorem dropWhile_append_ne {α : Type} {p : α → Bool} :
    ∀ (u v : List α), u.dropWhile p ≠ [] → (u ++ v).dropWhile p = u.dropWhile p ++ v := by
  intro u
  induction u with
  | nil => intro v h; simp at h
  | cons c t ih =>
    intro v h
    by_cases hc : p c = true
    · rw [List.dropWhile_cons_of_pos hc] at h
      rw [List.cons_append, List.dropWhile_cons_of_pos hc, List.dropWhile_cons_of_pos hc]
      exact ih v h
    · rw [List.cons_append, List.dropWhile_cons_of_neg (by simpa using hc),
        List.dropWhile_cons_of_neg (by simpa using hc)]
      rfl

theorem takeWhile_append_stop {α : Type} {p : α → Bool} :
    ∀ (u v : List α), u.dropWhile p ≠ [] → (u ++ v).takeWhile p = u.takeWhile p := by
  intro u
  induction u with
  | nil => intro v h; simp at h
  | cons c t ih =>
    intro v h
    by_cases hc : p c = true
    · rw [List.dropWhile_cons_of_pos hc] at h
      rw [List.cons_append, List.takeWhile_cons_of_pos hc, List.takeWhile_cons_of_pos hc]
      rw [ih v h]
    · rw [List.cons_append, List.takeWhile_cons_of_neg (by simpa using hc),
        List.takeWhile_cons_of_neg (by simpa using hc)]

theorem takeWhile_append_head {α : Type} {p : α → Bool} :
    ∀ (u : List α) (a : α) (w : List α), (∀ c ∈ u, p c = true) → p a = false →
      (u ++ a :: w).takeWhile p = u := by
  intro u
  induction u with
  | nil =>
    intro a w _ ha
    rw [List.nil_append, List.takeWhile_cons_of_neg (by simp [ha])]
  | cons c t ih =>
    intro a w hall ha
    rw [List.cons_append, List.takeWhile_cons_of_pos (hall c (by simp))]
    rw [ih a w (fun d hd => hall d (by simp [hd])) ha]

theorem stripR_append_ws (y b : List Char) (hb : ∀ c ∈ b, isWs c = true) :
    stripR (y ++ b) = stripR y := by
  show List.rdropWhile isWs (y ++ b) = List.rdropWhile isWs y
  rw [List.rdropWhile, List.rdropWhile, List.reverse_append]
  rw [dropWhile_append_all b.reverse y.reverse fun c hc => hb c (List.mem_reverse.mp hc)]

theorem stripR_append_ex (y z : List Char) (hz : ∃ c ∈ z, isWs c = false) :
    stripR (y ++ z) = y ++ stripR z := by
  show List.rdropWhile isWs (y ++ z) = y ++ List.rdropWhile isWs z
  rw [List.rdropWhile, List.rdropWhile, List.reverse_append]
  have hne : z.reverse.dropWhile isWs ≠ [] := by
    intro hnil
    obtain ⟨c, hcz, hcw⟩ := hz
    have := List.dropWhile_eq_nil_iff.mp hnil c (List.mem_reverse.mpr hcz)
    rw [this] at hcw
    cases hcw
  rw [dropWhile_append_ne z.reverse y.reverse hne, List.reverse_append,
    List.reverse_reverse]

theorem drop_tw {α : Type} (p : α → Bool) (l : List α) :
    l.drop (l.takeWhile p).length = l.dropWhile p := by
  nth_rewrite 2 [← List.takeWhile_append_dropWhile (p := p) (l := l)]
  exact List.drop_left _ _

theorem stripL_decomp (l : List Char) :
    stripL l = strip l ++ List.rtakeWhile isWs (stripL l) :=
  (rdropRtake isWs (stripL l)).symm

theorem strip_decomp (l : List Char) :
    l = l.takeWhile isWs ++ (strip l ++ List.rtakeWhile isWs (stripL l)) := by
  rw [← stripL_decomp]
  exact (List.takeWhile_append_dropWhile (p := isWs) (l := l)).symm

theorem headerMatch_head (l : List Char) (h : headerMatch l = true) :
    ∃ r, l = '#' :: r := by
  cases l with
  | nil => simp [headerMatch] at h
  | cons c r =>
    by_cases hc : (c == '#') = true
    · exact ⟨r, by rw [show c = '#' by simpa using hc]⟩
    · rw [headerMatch] at h
      rw [List.takeWhile_cons_of_neg (by simpa using hc)] at h
      simp at h

theorem headerMatch_append_ws (core b : List Char) (hm : headerMatch core = true)
    (_hb : ∀ c ∈ b, isWs c = true) : headerMatch (core ++ b) = true := by
  rw [headerMatch] at hm
  have hm2 := (Bool.and_eq_true _ _).mp hm
  have hm3 := (Bool.and_eq_true _ _).mp hm2.1
  have h1 := hm3.1
  have h2 := hm3.2
  have h3 := hm2.2
  have hdw : core.dropWhile (· == '#') ≠ [] := by
    intro hnil
    rw [← drop_tw (· == '#') core] at hnil
    rw [hnil] at h3
    simp at h3
  have htw : (core ++ b).takeWhile (· == '#') = core.takeWhile (· == '#') :=
    takeWhile_append_stop core b hdw
  rw [headerMatch, htw]
  have hle : (core.takeWhile (· == '#')).length ≤ core.length := twLenLe _ core
  rw [List.drop_append_of_le_length hle]
  refine (Bool.and_eq_true _ _).mpr ⟨(Bool.and_eq_true _ _).mpr ⟨h1, h2⟩, ?_⟩
  cases hdrop : core.drop (core.takeWhile (· == '#')).length with
  | nil => rw [hdrop] at h3; simp at h3
  | cons c rest =>
    cases rest with
    | nil => rw [hdrop] at h3; simp at h3
    | cons c2 rest2 =>
      rw [hdrop] at h3
      simpa using h3

theorem strip_head_hash (h : List Char) (hh : isHeaderLine h = true) :
    ∃ r, strip h = '#' :: r :=
  headerMatch_head (strip h) hh

theorem stripR_strip_self (l : List Char) (hl : isHeaderLine l = true) :
    stripR (strip l) = strip l := by
  obtain ⟨r, hr⟩ := strip_head_hash l hl
  have h2 : stripL (strip l) = strip l := by
    rw [hr]
    exact List.dropWhile_cons_of_neg (by decide)
  calc stripR (strip l) = stripR (stripL (strip l)) := by rw [h2]
    _ = strip (strip l) := rfl
    _ = strip l := strip_idem l

/-- A section flushed from a batch whose first line is a heading line begins
(after the section-level strip) with a line matching the heading pattern. -/
theorem flush_header_line (h : List Char) (ls : List (List Char))
    (hh : isHeaderLine h = true) (hnlh : ∀ c ∈ h, (c == '\n') = false) :
    headerMatch (firstLine (strip (joinNl (h :: ls)))) = true := by
  have hm : headerMatch (strip h) = true := hh
  obtain ⟨r0, hcore⟩ := strip_head_hash h hh
  have hdec := strip_decomp h
  have hbws : ∀ c ∈ List.rtakeWhile isWs (stripL h), isWs c = true :=
    fun c hc => List.mem_rtakeWhile_imp hc
  have hmemb : ∀ c ∈ List.rtakeWhile isWs (stripL h), c ∈ h := by
    intro c hc
    rw [hdec]
    simp only [List.mem_append]
    right; right
    exact hc
  have hmemc : ∀ c ∈ strip h, c ∈ h := fun c hc => (strip_sublist h).subset hc
  have hcorenl : ∀ c ∈ strip h, (c == '\n') = false := fun c hc => hnlh c (hmemc c hc)
  have hbnl : ∀ c ∈ List.rtakeWhile isWs (stripL h), (c == '\n') = false :=
    fun c hc => hnlh c (hmemb c hc)
  cases ls with
  | nil =>
    show headerMatch (firstLine (strip (joinNl [h]))) = true
    have hj : joinNl [h] = h := rfl
    rw [hj]
    have hfl : firstLine (strip h) = strip h :=
      List.takeWhile_eq_self_iff.mpr fun c hc => by simp [hcorenl c hc]
    rw [hfl]
    exact hm
  | cons l1 ls1 =>
    have hj : joinNl (h :: l1 :: ls1) = h ++ '\n' :: joinNl (l1 :: ls1) := rfl
    show headerMatch (firstLine (stripR (stripL (joinNl (h :: l1 :: ls1))))) = true
    rw [hj]
    have hsl : stripL (h ++ '\n' :: joinNl (l1 :: ls1)) =
        strip h ++ (List.rtakeWhile isWs (stripL h) ++ '\n' :: joinNl (l1 :: ls1)) := by
      conv_lhs => rw [hdec]
      rw [List.append_assoc, List.append_assoc]
      rw [show stripL (h.takeWhile isWs ++ (strip h ++
          (List.rtakeWhile isWs (stripL h) ++ '\n' :: joinNl (l1 :: ls1)))) =
          stripL (strip h ++ (List.rtakeWhile isWs (stripL h) ++
            '\n' :: joinNl (l1 :: ls1))) from
        dropWhile_append_all _ _ fun c hc => List.mem_takeWhile_imp hc]
      rw [hcore, List.cons_append]
      exact List.dropWhile_cons_of_neg (by decide)
    rw [hsl]
    by_cases hJ : ∃ c ∈ joinNl (l1 :: ls1), isWs c = false
    · have hsr : stripR (strip h ++ (List.rtakeWhile isWs (stripL h) ++
          '\n' :: joinNl (l1 :: ls1))) =
          (strip h ++ List.rtakeWhile isWs (stripL h) ++ ['\n']) ++
            stripR (joinNl (l1 :: ls1)) := by
        rw [show strip h ++ (List.rtakeWhile isWs (stripL h) ++
            '\n' :: joinNl (l1 :: ls1)) =
            (strip h ++ List.rtakeWhile isWs (stripL h) ++ ['\n']) ++
              joinNl (l1 :: ls1) by simp [List.append_assoc]]
        exact stripR_append_ex _ _ hJ
      rw [hsr]
      have hfl : firstLine ((strip h ++ List.rtakeWhile isWs (stripL h) ++ ['\n']) ++
          stripR (joinNl (l1 :: ls1))) =
          strip h ++ List.rtakeWhile isWs (stripL h) := by
        rw [show (strip h ++ List.rtakeWhile isWs (stripL h) ++ ['\n']) ++
            stripR (joinNl (l1 :: ls1)) =
            (strip h ++ List.rtakeWhile isWs (stripL h)) ++
              '\n' :: stripR (joinNl (l1 :: ls1)) by simp [List.append_assoc]]
        apply takeWhile_append_head
        · intro c hc
          rcases List.mem_append.mp hc with h1 | h1
          · simp [hcorenl c h1]
          · simp [hbnl c h1]
        · simp
      rw [hfl]
      exact headerMatch_append_ws (strip h) _ hm hbws
    · have hallws : ∀ c ∈ List.rtakeWhile isWs (stripL h) ++
          '\n' :: joinNl (l1 :: ls1), isWs c = true := by
        intro c hc
        rcases List.mem_append.mp hc with h1 | h1
        · exact hbws c h1
        · rcases List.mem_cons.mp h1 with h2 | h2
          · rw [h2]; rfl
          · by_contra hcw
            exact hJ ⟨c, h2, by simpa using hcw⟩
      rw [stripR_append_ws _ _ hallws, stripR_strip_self h hh]
      have hfl : firstLine (strip h) = strip h :=
        List.takeWhile_eq_self_iff.mpr fun c hc => by simp [hcorenl c hc]
      rw [hfl]
      exact hm

theorem splitLines_no_nl :
    ∀ (t : List Char) (l : List Char), l ∈ splitLines t → ∀ c ∈ l, (c == '\n') = false := by
  intro t
  induction t with
  | nil =>
    intro l hl c hc
    simp [splitLines] at hl
    subst hl
    simp at hc
  | cons a r ih =>
    intro l hl c hc
    by_cases ha : (a == '\n') = true
    · rw [show splitLines (a :: r) = [] :: splitLines r by simp [splitLines, ha]] at hl
      rcases List.mem_cons.mp hl with h1 | h1
      · subst h1; simp at hc
      · exact ih l h1 c hc
    · cases hsp : splitLines r with
      | nil =>
        rw [show splitLines (a :: r) = [[a]] by simp [splitLines, ha, hsp]] at hl
        simp at hl
        subst hl
        simp at hc
        rw [hc]
        simpa using ha
      | cons l0 ls =>
        rw [show splitLines (a :: r) = (a :: l0) :: ls by simp [splitLines, ha, hsp]] at hl
        rcases List.mem_cons.mp hl with h1 | h1
        · subst h1
          rcases List.mem_cons.mp hc with h2 | h2
          · rw [h2]; simpa using ha
          · exact ih l0 (by rw [hsp]; simp) c h2
        · exact ih l (by rw [hsp]; simp [h1]) c hc

theorem flushSec_cases (cur : List (List Char)) :
    flushSec cur = [] ∨ ∃ x, flushSec cur = [x] := by
  unfold flushSec
  cases cur with
  | nil => left; rfl
  | cons l0 t0 =>
    by_cases he : (strip (joinNl (l0 :: t0))).isEmpty = true
    · left; simp [he]
    · right; exact ⟨strip (joinNl (l0 :: t0)), by simp [he]⟩

theorem segGo_header_sections :
    ∀ (lines : List (List Char)) (hline : List Char) (cur : List (List Char)),
      isHeaderLine hline = true →
      (∀ c ∈ hline, (c == '\n') = false) →
      (∀ l ∈ lines, ∀ c ∈ l, (c == '\n') = false) →
      ∀ s ∈ segGo (hline :: cur) lines, headerMatch (firstLine s) = true := by
  intro lines
  induction lines with
  | nil =>
    intro hline cur hh hnl _ s hs
    unfold segGo flushSec at hs
    by_cases he : (strip (joinNl (hline :: cur))).isEmpty = true
    · simp [he] at hs
    · rw [if_neg he] at hs
      simp at hs
      rw [hs]
      exact flush_header_line hline cur hh hnl
  | cons ln rest ih =>
    intro hline cur hh hnl hlines s hs
    unfold segGo at hs
    by_cases hhl : isHeaderLine ln = true
    · rw [if_pos hhl] at hs
      rcases List.mem_append.mp hs with h1 | h1
      · unfold flushSec at h1
        by_cases he : (strip (joinNl (hline :: cur))).isEmpty = true
        · simp [he] at h1
        · rw [if_neg he] at h1
          simp at h1
          rw [h1]
          exact flush_header_line hline cur hh hnl
      · exact ih ln [] hhl (hlines ln (by simp))
          (fun l hl c hc => hlines l (by simp [hl]) c hc) s h1
    · rw [if_neg hhl] at hs
      exact ih hline (cur ++ [ln]) hh hnl
        (fun l hl c hc => hlines l (by simp [hl]) c hc) s hs

theorem segGo_tail_sections :
    ∀ (lines cur : List (List Char)),
      (∀ l ∈ lines, ∀ c ∈ l, (c == '\n') = false) →
      ∀ s ∈ (segGo cur lines).drop 1, headerMatch (firstLine s) = true := by
  intro lines
  induction lines with
  | nil =>
    intro cur _ s hs
    unfold segGo at hs
    rcases flushSec_cases cur with h1 | ⟨x, h1⟩ <;> rw [h1] at hs <;> simp at hs
  | cons ln rest ih =>
    intro cur hlines s hs
    unfold segGo at hs
    by_cases hhl : isHeaderLine ln = true
    · rw [if_pos hhl] at hs
      have hmem : s ∈ segGo [ln] rest := by
        rcases flushSec_cases cur with h1 | ⟨x, h1⟩
        · rw [h1, List.nil_append] at hs
          exact (List.drop_suffix 1 _).sublist.subset hs
        · rw [h1, List.singleton_append, List.drop_one, List.tail_cons] at hs
          exact hs
      exact segGo_header_sections rest ln [] hhl (hlines ln (by simp))
        (fun l hl c hc => hlines l (by simp [hl]) c hc) s hmem
    · rw [if_neg hhl] at hs
      exact ih (cur ++ [ln]) (fun l hl c hc => hlines l (by simp [hl]) c hc) s hs

theorem enum_mem_get {α : Type} (L : List α) (p : Nat × α) (h : p ∈ L.enum) :
    L.get? p.1 = some p.2 := by
  obtain ⟨n, hn⟩ := List.get?_of_mem h
  rw [List.get?_enum] at hn
  obtain ⟨a, ha, hpa⟩ := Option.map_eq_some'.mp hn
  cases hpa
  simpa using ha

theorem chunk_document_get (minc : Nat) (raw : List Char) (j : Nat) (c : ChunkRecord)
    (h : (chunk_document_at minc raw).get? j = some c) :
    c.chunk_index = j ∧ c.section_index = j := by
  unfold chunk_document_at at h
  have hkeep :
      (List.enum (merge_small_chunks (split_by_headers_manual (clean_text raw)) minc)).filter
          (fun p => !(strip p.2).isEmpty) =
        List.enum (merge_small_chunks (split_by_headers_manual (clean_text raw)) minc) := by
    apply List.filter_eq_self.mpr
    intro p hp
    have hmem : p.2 ∈ merge_small_chunks (split_by_headers_manual (clean_text raw)) minc :=
      List.get?_mem (enum_mem_get _ p hp)
    have hne : strip p.2 ≠ [] :=
      merge_strip_ne_nil (split_by_headers_manual (clean_text raw)).length
        (split_by_headers_manual (clean_text raw)) minc le_rfl
        (fun u hu => sections_strip_ne_nil (clean_text raw) u hu) p.2 hmem
    simpa [List.isEmpty_iff] using hne
  rw [hkeep] at h
  rw [List.get?_map] at h
  obtain ⟨q, hq, hfq⟩ := Option.map_eq_some'.mp h
  rw [List.get?_enum] at hq
  obtain ⟨p, hp, hqp⟩ := Option.map_eq_some'.mp hq
  rw [List.get?_enum] at hp
  obtain ⟨sct, _, hps⟩ := Option.map_eq_some'.mp hp
  subst hps
  subst hqp
  rw [← hfq]
  exact ⟨rfl, rfl⟩

/- ------------------------------------------------------------------ -/
/- Claim theorems -/

/-- C3: `_merge_small_chunks` does exactly one greedy left-to-right pass:
a small section with a successor is concatenated with it (blank-line joiner)
and both are consumed; otherwise the section is emitted unchanged; a final
section with no successor is emitted as-is; and for sizes [10, 10, 200] with
threshold 100 the result is the merge of the first two followed by the third
unchanged. -/
theorem c3_merge_greedy (m : Nat) (s1 s2 : List Char) (rest : List (List Char)) :
    ((strip s1).length < m →
      merge_small_chunks (s1 :: s2 :: rest) m =
        (s1 ++ str "\n\n" ++ s2) :: merge_small_chunks rest m) ∧
    (¬ (strip s1).length < m →
      merge_small_chunks (s1 :: s2 :: rest) m =
        s1 :: merge_small_chunks (s2 :: rest) m) ∧
    merge_small_chunks [s1] m = [s1] ∧
    (∀ a b c : List Char, a.length = 10 → b.length = 10 → c.length = 200 →
      merge_small_chunks [a, b, c] 100 = [a ++ str "\n\n" ++ b, c]) := by
  refine ⟨?_, ?_, rfl, ?_⟩
  · intro h
    simp [merge_small_chunks, h]
  · intro h
    simp [merge_small_chunks, h]
  · intro a b c ha _ _
    have hsmall : (strip a).length < 100 := by
      have := strip_length_le a
      omega
    simp [merge_small_chunks, hsmall]

theorem c3_merge_greedy_witness :
    merge_small_chunks [str "tiny", str "second piece longer"] 100 =
      [str "tiny" ++ str "\n\n" ++ str "second piece longer"] ∧
    merge_small_chunks
        [List.replicate 10 'a', List.replicate 10 'b', List.replicate 200 'c'] 100 =
      [List.replicate 10 'a' ++ str "\n\n" ++ List.replicate 10 'b',
        List.replicate 200 'c'] := by
  constructor
  · have h := (c3_merge_greedy 100 (str "tiny") (str "second piece longer") []).1
    simpa [merge_small_chunks] using h (by decide)
  · have h := (c3_merge_greedy 100 (List.replicate 10 'a')
      (List.replicate 10 'b') []).2.2.2
    exact h (List.replicate 10 'a') (List.replicate 10 'b')
      (List.replicate 200 'c') (by simp) (by simp) (by simp)

/-- C1 counterexample: in `<table><tr></tr>\na</table>` the `</tr>` inside the
table span is followed by whitespace, yet the compacted output contains no
`</tr>` followed by a newline at all — the newline kept by the `</tr>` rule is
then removed by the rule stripping whitespace after `>`. -/
theorem c1_counterexample :
    tableSegs (str "<table><tr></tr>\na</table>") =
      [(false, []), (true, str "<table><tr></tr>\na</table>"), (false, [])] ∧
    hasSub (str "</tr>\n") (str "<table><tr></tr>\na</table>") = true ∧
    clean_table_formatting (str "<table><tr></tr>\na</table>") =
      str "<table><tr></tr>a</table>" ∧
    hasSub (str "</tr>\n") (clean_table_formatting (str "<table><tr></tr>\na</table>")) =
      false := by
  refine ⟨by decide, by decide, by decide, by decide⟩

/-- C1 (amended): inside each table span the compacted output contains no `>`
(in particular no `</tr>`) immediately followed by whitespace: the single
newline kept after `</tr>` by the intermediate substitution is removed by the
later substitution that strips whitespace after `>`. -/
theorem c1_no_ws_after_gt (x : List Char) :
    ((tableSegs x).all fun sg => !sg.1 || pairsOk gtOk (table_clean_block sg.2)) = true := by
  rw [List.all_eq_true]
  intro sg _
  cases h : sg.1 with
  | false => simp
  | true =>
    have : pairsOk gtOk (table_clean_block sg.2) = true := by
      unfold table_clean_block
      exact wsLtDel_pairs _ (gtWsDel_pairs false _)
    simp [this]

/-- C9: table compaction is local to table spans: the text splits into
segments that concatenate back to the input, the compacted output is the same
concatenation with only the `<table>...</table>` segments rewritten (regions
outside spans are character-for-character identical), and a text with no
complete table span is returned unchanged. -/
theorem c9_compaction_local (x : List Char) :
    joinSegs (tableSegs x) = x ∧
    clean_table_formatting x = joinClean (tableSegs x) ∧
    (hasTableSpan x = false → clean_table_formatting x = x) :=
  ⟨joinSegs_segsF x.length x le_rfl,
   compactF_eq_joinClean x.length x le_rfl,
   fun h => compactF_no_span x h x.length⟩

theorem c9_compaction_local_witness :
    joinSegs (tableSegs (str "a<table><td>x</td></table>b")) =
      str "a<table><td>x</td></table>b" ∧
    clean_table_formatting (str "no tables > here\n") = str "no tables > here\n" :=
  ⟨(c9_compaction_local (str "a<table><td>x</td></table>b")).1,
   (c9_compaction_local (str "no tables > here\n")).2.2 (by decide)⟩

/-- C2 counterexample: `docC2` splits into three sections; its first section
is small and merges with the second, so the final chunk 1 carries exactly the
pre-merge section at position 2 — yet its `section_index` is 1, not 2.
`section_index` is therefore NOT the position before the merge step. -/
theorem c2_counterexample :
    (split_by_headers_manual (clean_text docC2)).length = 3 ∧
    (chunk_document docC2).map (fun c => (c.chunk_index, c.section_index)) =
      [(0, 0), (1, 1)] ∧
    ((chunk_document docC2).map fun c => c.content).get? 1 =
      (split_by_headers_manual (clean_text docC2)).get? 2 ∧
    ¬((chunk_document docC2).map fun c => c.section_index).get? 1 = some 2 := by
  refine ⟨by decide, by decide, by decide, by decide⟩

/-- C2 (amended): `section_index` equals the position the section occupies in
the POST-merge section sequence — the code enumerates the sections after
`_merge_small_chunks` — which (since no section is dropped by the emptiness
filter) is also the chunk's position in the emitted sequence. -/
theorem c2_section_index_post_merge (minc : Nat) (raw : List Char) :
    ((chunk_document_at minc raw).enum.all fun p => p.2.section_index == p.1) = true := by
  rw [List.all_eq_true]
  intro p hp
  have hget := enum_mem_get _ p hp
  have := (chunk_document_get minc raw p.1 p.2 hget).2
  simp [this]

/-- C4 counterexample: on the spec's end-to-end fixture with minChars = 20,
the pipeline's chunk 0 is the merge of the PREAMBLE "Intro line." (11 chars,
below threshold) with "# Section One\nShort.", and the "## Sub" section stays
a separate chunk 1 — not the merge the claim describes (which would also be
impossible: "# Section One\nShort." has exactly 20 characters, not fewer). -/
theorem c4_counterexample :
    (chunk_document_at 20 fixtureC4).map (fun c => c.content) =
      [str "Intro line.\n\n# Section One\nShort.",
       str "## Sub\nThis is a longer paragraph exceeding the minimum character threshold easily."] ∧
    ¬((chunk_document_at 20 fixtureC4).map fun c => c.content).head? =
      some (str "# Section One\nShort.\n\n## Sub\nThis is a longer paragraph exceeding the minimum character threshold easily.") := by
  refine ⟨by decide, by decide⟩

/-- C4 (amended): on the fixture with minChars = 20 the pipeline produces
exactly two chunks: chunk 0 merges the preamble "Intro line." with
"# Section One\nShort." (the preamble is the section below the threshold),
and chunk 1 is the "## Sub" section unchanged. -/
theorem c4_pipeline_fixture :
    (chunk_document_at 20 fixtureC4).map
        (fun c => (c.content, c.chunk_index, c.section_index)) =
      [(str "Intro line.\n\n# Section One\nShort.", 0, 0),
       (str "## Sub\nThis is a longer paragraph exceeding the minimum character threshold easily.", 1, 1)] := by
  decide

/-- C10: every chunk emitted by `chunk_document` has `section_index` equal to
`chunk_index`: segmentation and merging never produce a whitespace-only
section, so the emptiness filter drops nothing and both counters enumerate
the post-merge sections densely from 0. -/
theorem c10_section_eq_chunk_index (raw : List Char) :
    ((chunk_document raw).all fun c => c.section_index == c.chunk_index) = true := by
  rw [List.all_eq_true]
  intro c hc
  obtain ⟨n, hn⟩ := List.get?_of_mem hc
  have h := chunk_document_get 100 raw n c hn
  simp [h.1, h.2]

/-- C8: every section produced by `_split_by_headers_manual`, except possibly
the first one (the leading preamble), has a first line matching the heading
pattern `^#{1,4}\s+.+$`. -/
theorem c8_sections_begin_with_heading (t : List Char) :
    (((split_by_headers_manual t).drop 1).all fun s => headerMatch (firstLine s)) = true := by
  rw [List.all_eq_true]
  intro s hs
  exact segGo_tail_sections (splitLines t) [] (splitLines_no_nl t) s hs

/-- C6: `_clean_text` is idempotent: normalising an already-normalised string
changes nothing. -/
theorem c6_normalize_idem (x : List Char) : clean_text (clean_text x) = clean_text x := by
  have hchars : ∀ c ∈ clean_text x, (fun c => !forbiddenChar c) c = true := by
    intro c hc
    simpa using mem_clean_chars x c hc
  have h1 : sub_ctrl (clean_text x) = clean_text x := List.filter_eq_self.mpr hchars
  have hnt : (clean_text x).all (fun c => !(c == '\t')) = true := by
    show (strip (nlDel false (sub_spaces (sub_ctrl x)))).all _ = true
    exact all_of_sublist (strip_sublist _)
      (all_of_sublist (nlDel_sublist _ false) (sub_spaces_noTab _))
  have hpr : pairsOk stOkP (clean_text x) = true := by
    show pairsOk stOkP (strip (nlDel false (sub_spaces (sub_ctrl x)))) = true
    exact pairs_strip _ _ (nlDel_pairs _ false (sub_spaces_pairs _))
  have h2 : sub_spaces (clean_text x) = clean_text x :=
    sub_spaces_eq_self _ hnt hpr
  have hok : nlOk false (clean_text x) = true := by
    show nlOk false (strip (nlDel false (sub_spaces (sub_ctrl x)))) = true
    exact nlOk_strip _ (nlOk_nlDel _ false)
  have h3 : nlDel false (clean_text x) = clean_text x := nlDel_eq_self _ false hok
  have h4 : strip (clean_text x) = clean_text x := by
    show strip (strip (nlDel false (sub_spaces (sub_ctrl x)))) =
      strip (nlDel false (sub_spaces (sub_ctrl x)))
    exact strip_idem _
  show strip (nlDel false (sub_spaces (sub_ctrl (clean_text x)))) = clean_text x
  rw [h1, h2, h3, h4]

/-- C7: the output of `_clean_text` satisfies the NormalizedText invariant:
no character from the forbidden control ranges, no run of three or more
consecutive newlines, and no run of two or more adjacent space/tab
characters. -/
theorem c7_normalized_invariant (x : List Char) :
    (clean_text x).all (fun c => !forbiddenChar c) = true ∧
    hasTripleNl (clean_text x) = false ∧
    hasDoubleST (clean_text x) = false := by
  refine ⟨?_, ?_, ?_⟩
  · rw [List.all_eq_true]
    intro c hc
    simpa using mem_clean_chars x c hc
  · apply noTriple_of_nlOk _ false
    show nlOk false (strip (nlDel false (sub_spaces (sub_ctrl x)))) = true
    exact nlOk_strip _ (nlOk_nlDel _ false)
  · apply noDouble_of_pairs
    show pairsOk stOkP (strip (nlDel false (sub_spaces (sub_ctrl x)))) = true
    exact pairs_strip _ _ (nlDel_pairs _ false (sub_spaces_pairs _))

/-- C5 counterexample: with a chunker that raises on document 0 and succeeds
on document 1, the batch returns the error; the later document's chunks are
not produced, and the pipeline propagates the same error — refuting
"processing continues with the next document". -/
theorem c5_counterexample :
    chunk_all_documents failingChunker [0, 1] = Except.error 7 ∧
    failingChunker 1 = Except.ok [str "chunk"] ∧
    run_full_pipeline (Except.ok [0, 1]) failingChunker = Except.error 7 := by
  refine ⟨rfl, rfl, rfl⟩

/-- C5 (amended): a raising document aborts the batch: `chunk_all_documents`
re-raises the error of the first failing document, so no later document's
chunks are produced, and `run_full_pipeline` propagates the same error. -/
theorem c5_error_propagates (f : Nat → Except Nat (List (List Char)))
    (d : Nat) (rest : List Nat) (e : Nat) (h : f d = Except.error e) :
    chunk_all_documents f (d :: rest) = Except.error e ∧
    run_full_pipeline (Except.ok (d :: rest)) f = Except.error e := by
  have h1 : chunk_all_documents f (d :: rest) = Except.error e := by
    simp [chunk_all_documents, h]
  exact ⟨h1, by simpa [run_full_pipeline] using h1⟩

theorem c5_error_propagates_witness :
    chunk_all_documents failingChunker [0, 1] = Except.error 7 ∧
    run_full_pipeline (Except.ok [0, 1]) failingChunker = Except.error 7 :=
  c5_error_propagates failingChunker 0 [1] 7 rfl
